import Mathlib

/-! NFC helpers of `esphome/components/nfc/nfc.cpp`

A shallow embedding of the tag classifier, the MIFARE Classic TLV decoder and
the buffer sizers, followed by the properties established about them.

Conventions of the embedding:

* a `std::vector<uint8_t>` is a `List Nat` whose elements are bytes
  (`IsBytes`); `data[i]` is `data[i]?`, and a read outside the vector, which
  is undefined behaviour in C++, makes the embedded function return `none`;
* `uint8_t` and `uint32_t` results are natural numbers reduced modulo `2^8`
  and `2^32` at the places where the C++ converts to the narrower type;
* reference parameters are passed in and returned explicitly.
-/

set_option linter.unusedVariables false

namespace esphome
namespace nfc

/-! ## Declarations of `nfc.h` used by the functions below -/

/-- Modelled from the spec: the tag-type constants `TAG_TYPE_*` are declared in
`nfc.h`, which is not part of the sources at hand; the spec gives them as the
closed enumeration {Unknown, Type2, MifareClassic, MifareUltralight,
MifareDESFire}. -/
inductive TagType where
  | Unknown
  | Type2
  | MifareClassic
  | MifareUltralight
  | MifareDESFire
deriving DecidableEq, Repr

/-- Modelled from the spec: `MIFARE_CLASSIC_BLOCK_SIZE` is declared in `nfc.h`;
the spec gives the block size as 16 bytes. -/
def MIFARE_CLASSIC_BLOCK_SIZE : Nat := 16

/-- Modelled from the spec: `MIFARE_CLASSIC_LONG_TLV_SIZE` is declared in
`nfc.h`; the spec gives the long form as a 4-byte header (payload at `i+4`). -/
def MIFARE_CLASSIC_LONG_TLV_SIZE : Nat := 4

/-- Modelled from the spec: `MIFARE_CLASSIC_SHORT_TLV_SIZE` is declared in
`nfc.h`; the spec gives the short form as a 2-byte header (payload at `i+2`). -/
def MIFARE_CLASSIC_SHORT_TLV_SIZE : Nat := 2

/-- Modelled from the spec: `MIFARE_ULTRALIGHT_READ_SIZE` is declared in
`nfc.h`; the spec gives the Ultralight read unit as 4 bytes. -/
def MIFARE_ULTRALIGHT_READ_SIZE : Nat := 4

/-! ## Machine integers and vectors -/

/-- Conversion of an integer value to `uint8_t`. -/
def to_uint8 (x : Int) : Nat := (x % 256).toNat

/-- Conversion of a non-negative value to `uint32_t`. -/
def to_uint32 (x : Nat) : Nat := x % 4294967296

/-- The elements of a `std::vector<uint8_t>` are bytes. -/
def IsBytes (data : List Nat) : Prop := ∀ b ∈ data, b < 256

instance (data : List Nat) : Decidable (IsBytes data) := by
  unfold IsBytes; infer_instance

/-! ## Tag classification -/

/-- The function `get_tag_type` (nfc.cpp:42-59).  The body tests `uid.size()`,
where `uid` is not one of the three parameters: it is taken here as a further
argument, the vector named `uid` that the body refers to.  The parameter
`uid_length` is not read by the body. -/
def get_tag_type (uid : List Nat) (uid_length : Nat) (u16_ATQA : Nat) (u8_SAK : Nat) : TagType :=
  if uid.length = 4 ∧ u16_ATQA = 0x0004 ∧ u8_SAK = 0x08 then TagType.MifareClassic
  else if uid.length = 4 ∧ u16_ATQA = 0x0002 ∧ u8_SAK = 0x18 then TagType.MifareClassic
  else if uid.length = 7 ∧ u16_ATQA = 0x0044 ∧ u8_SAK = 0x00 then TagType.MifareUltralight
  else if uid.length = 7 ∧ u16_ATQA = 0x0344 ∧ u8_SAK = 0x20 then TagType.MifareDESFire
  else TagType.Unknown

/-- The function `guess_tag_type` (nfc.cpp:34-40). -/
def guess_tag_type (uid_length : Nat) : TagType :=
  if uid_length = 4 then TagType.MifareClassic else TagType.Type2

/-- The decision table of the specification (section 4.2), as a function of
the three inputs it names: UID length, ATQA and SAK.  This is the
specification side of the comparison with `get_tag_type`. -/
def tag_type_decision_table (uid_length : Nat) (atqa : Nat) (sak : Nat) : TagType :=
  if uid_length = 4 ∧ atqa = 0x0004 ∧ sak = 0x08 then TagType.MifareClassic
  else if uid_length = 4 ∧ atqa = 0x0002 ∧ sak = 0x18 then TagType.MifareClassic
  else if uid_length = 7 ∧ atqa = 0x0044 ∧ sak = 0x00 then TagType.MifareUltralight
  else if uid_length = 7 ∧ atqa = 0x0344 ∧ sak = 0x20 then TagType.MifareDESFire
  else TagType.Unknown

/-! ## TLV decoder -/

/-- The loop of `get_mifare_classic_ndef_start_index` (nfc.cpp:62-71), entered
with loop variable `i` and `n` iterations left before `i` reaches
`MIFARE_CLASSIC_BLOCK_SIZE`.  The returns `-2` and `-1` are converted to the
return type `uint8_t`. -/
def ndef_start_index_loop (data : List Nat) : Nat → Nat → Option Nat
  | 0, _ => some (to_uint8 (-1))
  | n + 1, i =>
    match data[i]? with
    | none => none
    | some b =>
      if b = 0x00 then ndef_start_index_loop data n (i + 1)
      else if b = 0x03 then some (to_uint8 i)
      else some (to_uint8 (-2))

/-- The function `get_mifare_classic_ndef_start_index` (nfc.cpp:61-72). -/
def get_mifare_classic_ndef_start_index (data : List Nat) : Option Nat :=
  ndef_start_index_loop data MIFARE_CLASSIC_BLOCK_SIZE 0

/-- What a call of `decode_mifare_classic_tlv` leaves behind: the returned
`bool` and the two reference parameters after the call. -/
structure TlvResult where
  ok : Bool
  message_length : Nat
  message_start_index : Nat
deriving DecidableEq, Repr

/-- The function `decode_mifare_classic_tlv` (nfc.cpp:74-88).  The arguments
`message_length` and `message_start_index` are the values the reference
parameters hold before the call.  In `i < 0` the `uint8_t` value `i` is
promoted to `int`, and `i + 1`, `i + 2`, `i + 3` are computed in `int`. -/
def decode_mifare_classic_tlv (data : List Nat) (message_length : Nat)
    (message_start_index : Nat) : Option TlvResult :=
  match get_mifare_classic_ndef_start_index data with
  | none => none
  | some i =>
    if (i : Int) < 0 then some ⟨false, message_length, message_start_index⟩
    else
      match data[i]? with
      | none => none
      | some d =>
        if d ≠ 0x03 then some ⟨false, message_length, message_start_index⟩
        else
          match data[i + 1]? with
          | none => none
          | some d1 =>
            if d1 = 0xFF then
              match data[i + 2]? with
              | none => none
              | some d2 =>
                match data[i + 3]? with
                | none => none
                | some d3 =>
                  some ⟨true, to_uint32 (((0xFF &&& d2) <<< 8) ||| (0xFF &&& d3)),
                    to_uint8 ((i : Int) + MIFARE_CLASSIC_LONG_TLV_SIZE)⟩
            else
              some ⟨true, to_uint32 d1, to_uint8 ((i : Int) + MIFARE_CLASSIC_SHORT_TLV_SIZE)⟩

/-- The TLV header that encodes the message length `L`, as the round-trip
property of the specification describes it: `0x03, L` in the short form and
`0x03, 0xFF, L div 256, L mod 256` in the long form.  The source has no
encoder; this is the specification side of the round trip. -/
def tlv_header (L : Nat) : List Nat :=
  if L ≤ 254 then [0x03, L] else [0x03, 0xFF, L / 256, L % 256]

/-! ## Buffer sizes -/

/-- The function `get_mifare_ultralight_buffer_size` (nfc.cpp:90-95), in
`uint32_t` arithmetic. -/
def get_mifare_ultralight_buffer_size (message_length : Nat) : Nat :=
  let buffer_size := to_uint32 (message_length + 2 + 1)
  if buffer_size % MIFARE_ULTRALIGHT_READ_SIZE ≠ 0 then
    to_uint32 (((buffer_size / MIFARE_ULTRALIGHT_READ_SIZE) + 1) * MIFARE_ULTRALIGHT_READ_SIZE)
  else buffer_size

/-- The function `get_mifare_classic_buffer_size` (nfc.cpp:97-108), in
`uint32_t` arithmetic. -/
def get_mifare_classic_buffer_size (message_length : Nat) : Nat :=
  let buffer_size :=
    if message_length < 255 then
      to_uint32 (message_length + (MIFARE_CLASSIC_SHORT_TLV_SIZE + 1))
    else
      to_uint32 (message_length + (MIFARE_CLASSIC_LONG_TLV_SIZE + 1))
  if buffer_size % MIFARE_CLASSIC_BLOCK_SIZE ≠ 0 then
    to_uint32 (((buffer_size / MIFARE_CLASSIC_BLOCK_SIZE) + 1) * MIFARE_CLASSIC_BLOCK_SIZE)
  else buffer_size

/-! ## Block classification -/

/-- The function `mifare_classic_is_first_block` (nfc.cpp:110-116). -/
def mifare_classic_is_first_block (block_num : Nat) : Bool :=
  if block_num < 128 then block_num % 4 == 0 else block_num % 16 == 0

/-- The function `mifare_classic_is_trailer_block` (nfc.cpp:118-124).  The sum
`block_num + 1` is computed in `int`, so it does not wrap at 255. -/
def mifare_classic_is_trailer_block (block_num : Nat) : Bool :=
  if block_num < 128 then (block_num + 1) % 4 == 0 else (block_num + 1) % 16 == 0

/-- The first block of sector `s` in the MIFARE Classic geometry that the
specification names: sectors 0-31 have 4 blocks each, sectors 32-39 have 16
blocks each, starting at block 128.  Specification side of the comparison. -/
def sector_first_block (s : Nat) : Nat :=
  if s < 32 then 4 * s else 128 + 16 * (s - 32)

/-- The number of blocks of sector `s` in the same geometry. -/
def sector_block_count (s : Nat) : Nat :=
  if s < 32 then 4 else 16

/-! ## Formatters

The array `buf` has the declared length `format_buf_length`.  The functions
`format_uid_stored` and `format_bytes_stored` give the characters that the
`sprintf` calls store from `buf[0]` on, in the order of the addresses.  The
functions `format_uid` and `format_bytes` give the returned string; a store or
a read outside the declared length of `buf` is undefined behaviour in C++ and
makes them return `none`, and so does a read of a byte that no call has
stored. -/

/-- Conversion of an integer value to `size_t`, for a `size_t` of `size_bits`
bits. -/
def to_size_t (size_bits : Nat) (x : Int) : Nat := (x % (2 : Int) ^ size_bits).toNat

/-- The declared length of `buf` (nfc.cpp:11 and nfc.cpp:23), the expression
`(size * 2) + size - 1` in `size_t` arithmetic. -/
def format_buf_length (size_bits : Nat) (size : Nat) : Nat :=
  to_size_t size_bits ((size : Int) * 2 + (size : Int) - 1)

/-- The terminating character of a C string. -/
def NUL : Char := Char.ofNat 0

/-- One uppercase hexadecimal digit. -/
def hex_upper (d : Nat) : Char :=
  if d < 10 then Char.ofNat (48 + d) else Char.ofNat (55 + d)

/-- What the conversion `%02X` prints for a `uint8_t` argument: two uppercase
hexadecimal digits, the high one first. -/
def sprintf_02X (x : Nat) : List Char := [hex_upper (x / 16), hex_upper (x % 16)]

/-- The call `sprintf(buf + offset, format, x)`, where `text` is the formatted
output: it stores `text` and a terminating NUL from `buf[offset]` on and
returns the number of characters of `text`. -/
def sprintf (mem : List Char) (offset : Nat) (text : List Char) : List Char × Nat :=
  (mem.take offset ++ text ++ [NUL] ++ mem.drop (offset + text.length + 1), text.length)

/-- The constructor `std::string(buf)`: the characters from `buf[0]` up to the
first NUL, `none` when the read runs into a byte that was never stored. -/
def read_c_string : List Char → Option (List Char)
  | [] => none
  | c :: cs => if c = NUL then some [] else (read_c_string cs).map (fun r => c :: r)

/-- The loop of `format_uid` and `format_bytes` (nfc.cpp:13-18, 25-30), entered
with loop variable `i`, `n` iterations left, the stored characters `mem` and
`offset`.  The format is `%02X` followed by `separator` when
`i + 1 < bytes.size()` and plain `%02X` otherwise. -/
def format_loop (separator : List Char) (bytes : List Nat) :
    Nat → Nat → List Char → Nat → Option (List Char × Nat)
  | 0, _, mem, offset => some (mem, offset)
  | n + 1, i, mem, offset =>
    match bytes[i]? with
    | none => none
    | some x =>
      let text := if i + 1 < bytes.length then sprintf_02X x ++ separator else sprintf_02X x
      let r := sprintf mem offset text
      format_loop separator bytes n (i + 1) r.1 (offset + r.2)

/-- The characters that `format_uid` has stored from `buf[0]` on when its loop
ends, terminating NUL included. -/
def format_uid_stored (uid : List Nat) : Option (List Char) :=
  (format_loop [Char.ofNat 45] uid uid.length 0 [] 0).map (fun r => r.1)

/-- The function `format_uid` (nfc.cpp:10-20), for a `size_t` of `size_bits`
bits; the separator is the hyphen, character 45.  The result is `none` when
the characters stored by the `sprintf` calls do not fit the declared length of
`buf`, so that one of them was stored outside the array, and when
`std::string(buf)` meets no NUL among the stored characters. -/
def format_uid (size_bits : Nat) (uid : List Nat) : Option String :=
  match format_uid_stored uid with
  | none => none
  | some mem =>
    if format_buf_length size_bits uid.length < mem.length then none
    else (read_c_string mem).map String.mk

/-- The characters that `format_bytes` has stored from `buf[0]` on when its loop
ends, terminating NUL included. -/
def format_bytes_stored (bytes : List Nat) : Option (List Char) :=
  (format_loop [Char.ofNat 32] bytes bytes.length 0 [] 0).map (fun r => r.1)

/-- The function `format_bytes` (nfc.cpp:22-32), for a `size_t` of `size_bits`
bits; the separator is the space, character 32.  The result is `none` in the
same two cases as for `format_uid`. -/
def format_bytes (size_bits : Nat) (bytes : List Nat) : Option String :=
  match format_bytes_stored bytes with
  | none => none
  | some mem =>
    if format_buf_length size_bits bytes.length < mem.length then none
    else (read_c_string mem).map String.mk

/-- The two-digit renderings of the bytes joined by a separator, as the
specification describes the output of the formatters.  Specification side of
the comparison. -/
def hex_joined (separator : Char) (bytes : List Nat) : List Char :=
  List.intercalate [separator] (bytes.map sprintf_02X)

/-! ## Indices read by the TLV decoder -/

/-- The indices at which the loop of `get_mifare_classic_ndef_start_index`
reads `data`, in order, up to and including the first read outside the
vector. -/
def ndef_start_index_loop_reads (data : List Nat) : Nat → Nat → List Nat
  | 0, _ => []
  | n + 1, i =>
    i :: (match data[i]? with
      | none => []
      | some b => if b = 0x00 then ndef_start_index_loop_reads data n (i + 1) else [])

/-- The indices at which `decode_mifare_classic_tlv`, its call of
`get_mifare_classic_ndef_start_index` included, reads `data`, in order, up to
and including the first read outside the vector.  The branches are those of
`decode_mifare_classic_tlv`. -/
def decode_mifare_classic_tlv_reads (data : List Nat) : List Nat :=
  ndef_start_index_loop_reads data MIFARE_CLASSIC_BLOCK_SIZE 0 ++
  (match get_mifare_classic_ndef_start_index data with
    | none => []
    | some i =>
      if (i : Int) < 0 then []
      else
        i :: (match data[i]? with
          | none => []
          | some d =>
            if d ≠ 0x03 then []
            else
              (i + 1) :: (match data[i + 1]? with
                | none => []
                | some d1 =>
                  if d1 = 0xFF then
                    (i + 2) :: (match data[i + 2]? with
                      | none => []
                      | some _ => [i + 3])
                  else [i + 1])))

/-! ## Auxiliary facts -/

theorem to_uint8_of_lt (i : Nat) (h : i < 256) : to_uint8 (i : Int) = i := by
  unfold to_uint8
  omega

theorem to_uint8_add_of_lt (i k : Nat) (h : i + k < 256) :
    to_uint8 ((i : Int) + (k : Int)) = i + k := by
  unfold to_uint8
  omega

theorem to_uint32_of_lt (x : Nat) (h : x < 4294967296) : to_uint32 x = x := by
  unfold to_uint32
  omega

/-- Scanning from index `k` with `n` iterations left: when every byte from `k`
up to `i` is `0x00` and the byte at `i` is `0x03`, the loop returns `i`. -/
theorem ndef_start_index_loop_found (data : List Nat) (i : Nat) (hi : i < 256)
    (h3 : data[i]? = some 3) :
    ∀ (n k : Nat), k ≤ i → i < k + n →
      (∀ j, k ≤ j → j < i → data[j]? = some 0) →
      ndef_start_index_loop data n k = some i := by
  intro n
  induction n with
  | zero => intro k hk hlt _; omega
  | succ n ih =>
    intro k hk hlt hz
    unfold ndef_start_index_loop
    by_cases hki : k = i
    · subst hki
      simp [h3, to_uint8_of_lt k hi]
    · have hk0 : data[k]? = some 0 := hz k (Nat.le_refl k) (by omega)
      simp only [hk0, if_true]
      exact ih (k + 1) (by omega) (by omega) (fun j hj hji => hz j (by omega) hji)

/-- The start-index scan finds a `0x03` that only `0x00` bytes precede. -/
theorem get_mifare_classic_ndef_start_index_found (data : List Nat) (i : Nat)
    (hi : i < 16) (hz : ∀ j, j < i → data[j]? = some 0) (h3 : data[i]? = some 3) :
    get_mifare_classic_ndef_start_index data = some i := by
  unfold get_mifare_classic_ndef_start_index MIFARE_CLASSIC_BLOCK_SIZE
  exact ndef_start_index_loop_found data i (by omega) h3 16 0 (Nat.zero_le i) (by omega)
    (fun j _ hji => hz j hji)

/-- Big-endian composition of two bytes, as `decode_mifare_classic_tlv`
computes it with masks, a shift and a bitwise or. -/
theorem be16_eq (hi lo : Nat) (hhi : hi < 256) (hlo : lo < 256) :
    ((0xFF &&& hi) <<< 8) ||| (0xFF &&& lo) = 256 * hi + lo := by
  have m1 : (0xFF &&& hi) = hi := by
    rw [Nat.and_comm]
    exact Nat.and_pow_two_sub_one_of_lt_two_pow (n := 8) (by simpa using hhi)
  have m2 : (0xFF &&& lo) = lo := by
    rw [Nat.and_comm]
    exact Nat.and_pow_two_sub_one_of_lt_two_pow (n := 8) (by simpa using hlo)
  rw [m1, m2, Nat.shiftLeft_eq, Nat.mul_comm hi (2 ^ 8)]
  exact (Nat.mul_add_lt_is_or (i := 8) (by simpa using hlo) hi).symm

/-- Decoding when the scan has found the tag byte at `i` and the next byte is
not the long-form marker. -/
theorem decode_short_at (data : List Nat) (ml msi i b : Nat) (hi : i ≤ 14)
    (hz : ∀ j, j < i → data[j]? = some 0) (h3 : data[i]? = some 3)
    (h1 : data[i + 1]? = some b) (hb : b < 256) (hne : b ≠ 0xFF) :
    decode_mifare_classic_tlv data ml msi = some ⟨true, b, i + 2⟩ := by
  have hs := get_mifare_classic_ndef_start_index_found data i (by omega) hz h3
  have h8 : to_uint8 ((i : Int) + 2) = i + 2 := to_uint8_add_of_lt i 2 (by omega)
  have hneg : ¬ ((i : Int) < 0) := by omega
  unfold decode_mifare_classic_tlv MIFARE_CLASSIC_SHORT_TLV_SIZE
  simp [hs, h3, h1, hne, h8, hneg, to_uint32_of_lt b (by omega)]

/-- Decoding when the scan has found the tag byte at `i` and the next byte is
the long-form marker `0xFF`. -/
theorem decode_long_at (data : List Nat) (ml msi i hi8 lo8 : Nat) (hi : i ≤ 12)
    (hz : ∀ j, j < i → data[j]? = some 0) (h3 : data[i]? = some 3)
    (h1 : data[i + 1]? = some 0xFF) (h2 : data[i + 2]? = some hi8)
    (h4 : data[i + 3]? = some lo8) (hhi : hi8 < 256) (hlo : lo8 < 256) :
    decode_mifare_classic_tlv data ml msi = some ⟨true, 256 * hi8 + lo8, i + 4⟩ := by
  have hs := get_mifare_classic_ndef_start_index_found data i (by omega) hz h3
  have h8 : to_uint8 ((i : Int) + 4) = i + 4 := to_uint8_add_of_lt i 4 (by omega)
  have hneg : ¬ ((i : Int) < 0) := by omega
  have hbe := be16_eq hi8 lo8 hhi hlo
  unfold decode_mifare_classic_tlv MIFARE_CLASSIC_LONG_TLV_SIZE
  simp only [hs, h3, h1, h2, h4]
  simp [h8, hneg, hbe, to_uint32_of_lt (256 * hi8 + lo8) (by omega)]

/-- What the start-index loop can return: one of the two error codes, as
`uint8_t` values, or an index below the loop bound at which the vector holds
`0x03`. -/
theorem ndef_start_index_loop_result (data : List Nat) :
    ∀ (n k r : Nat), k + n ≤ 256 → ndef_start_index_loop data n k = some r →
      r = 255 ∨ r = 254 ∨ (r < k + n ∧ data[r]? = some 3) := by
  intro n
  induction n with
  | zero =>
    intro k r _ h
    left
    simp only [ndef_start_index_loop, Option.some.injEq] at h
    rw [← h]
    decide
  | succ n ih =>
    intro k r hk h
    unfold ndef_start_index_loop at h
    cases hd : data[k]? with
    | none => simp [hd] at h
    | some b =>
      simp only [hd] at h
      by_cases hb0 : b = 0
      · simp only [hb0, if_true] at h
        rcases ih (k + 1) r (by omega) h with h1 | h1 | ⟨h1, h2⟩
        · exact Or.inl h1
        · exact Or.inr (Or.inl h1)
        · exact Or.inr (Or.inr ⟨by omega, h2⟩)
      · by_cases hb3 : b = 3
        · subst hb3
          simp only [if_true] at h
          have hr : r = k := by
            have := to_uint8_of_lt k (by omega)
            simp_all
          subst hr
          exact Or.inr (Or.inr ⟨by omega, hd⟩)
        · simp only [hb0, hb3, if_false, Option.some.injEq] at h
          right; left
          rw [← h]
          decide

/-- On a vector of exactly 16 bytes `decode_mifare_classic_tlv` never completes
with the result `false`: after an error code from the scan, the test
`data[i] != 0x03` reads index 254 or 255, outside the vector. -/
theorem decode_mifare_classic_tlv_not_false_of_length_16 (data : List Nat)
    (ml msi : Nat) (hlen : data.length = 16) (r : TlvResult)
    (h : decode_mifare_classic_tlv data ml msi = some r) : r.ok = true := by
  unfold decode_mifare_classic_tlv at h
  cases hs : get_mifare_classic_ndef_start_index data with
  | none => simp [hs] at h
  | some i =>
    have hneg : ¬ ((i : Int) < 0) := by omega
    simp only [hs, hneg, if_false] at h
    have hres := ndef_start_index_loop_result data 16 0 i (by omega) hs
    have hd : data[i]? = some 3 := by
      rcases hres with h1 | h1 | ⟨_, h2⟩
      · subst h1
        have : data[255]? = none := List.getElem?_eq_none (by omega)
        simp [this] at h
      · subst h1
        have : data[254]? = none := List.getElem?_eq_none (by omega)
        simp [this] at h
      · exact h2
    simp only [hd] at h
    cases h1 : data[i + 1]? with
    | none => simp [h1] at h
    | some d1 =>
      simp only [h1] at h
      by_cases hff : d1 = 0xFF
      · simp only [hff, if_true] at h
        cases h2 : data[i + 2]? with
        | none => simp [h2] at h
        | some d2 =>
          cases h3 : data[i + 3]? with
          | none => simp [h2, h3] at h
          | some d3 =>
            simp [h2, h3] at h
            rw [← h]
      · simp [hff] at h
        rw [← h]

/-- Reads of a vector that starts with `p` bytes `0x00`. -/
theorem getElem?_zero_padding (p : Nat) (xs : List Nat) (j : Nat) (hj : j < p) :
    (List.replicate p 0 ++ xs)[j]? = some 0 := by
  rw [List.getElem?_append_left (by simpa using hj)]
  simp [List.getElem?_replicate, hj]

theorem getElem?_after_padding (p : Nat) (xs : List Nat) (k : Nat) :
    (List.replicate p 0 ++ xs)[p + k]? = xs[k]? := by
  rw [List.getElem?_append_right (by simp)]
  simp

/-- The function `get_tag_type` follows the decision table on the size of `uid`, whatever
the argument `uid_length` is. -/
theorem get_tag_type_eq_table_on_uid_size (uid : List Nat) (uid_length atqa sak : Nat) :
    get_tag_type uid uid_length atqa sak = tag_type_decision_table uid.length atqa sak := by
  rfl

/-- Whatever vector `uid` stands for, some input `(uid_length, ATQA, SAK)` in the
ranges of `uint8_t`, `uint16_t` and `uint8_t` is classified differently by
`get_tag_type` and by the decision table. -/
theorem get_tag_type_differs_from_table (uid : List Nat) :
    ∃ uid_length atqa sak, uid_length < 256 ∧ atqa < 65536 ∧ sak < 256 ∧
      get_tag_type uid uid_length atqa sak ≠ tag_type_decision_table uid_length atqa sak := by
  by_cases h : uid.length = 4
  · refine ⟨7, 0x0004, 0x08, by omega, by omega, by omega, ?_⟩
    simp [get_tag_type, tag_type_decision_table, h]
  · refine ⟨4, 0x0004, 0x08, by omega, by omega, by omega, ?_⟩
    simp [get_tag_type, tag_type_decision_table, h]

set_option maxRecDepth 20000 in
/-- On a longer vector whose first 16 bytes are `0x00` the reads stay inside the
vector, and a `0x03` at index 255 makes the decoder return true, with
`message_start_index` wrapped to 1: the error code of the scan is taken for an
index. -/
theorem decode_mifare_classic_tlv_error_code_as_index :
    decode_mifare_classic_tlv (List.replicate 255 0 ++ [0x03, 0x07]) 0 0 =
      some ⟨true, 7, 1⟩ := by
  decide

/-! ## Tag classification: the decision table -/

/-- C1, evaluated at the failing input: with `uid` a 7-byte vector, the call
`get_tag_type(4, 0x0004, 0x08)` yields Unknown, where the decision table
gives MifareClassic for UID length 4, ATQA 0x0004 and SAK 0x08. -/
theorem get_tag_type_ignores_uid_length :
    get_tag_type [0x04, 0xA2, 0xFF, 0x11, 0x22, 0x33, 0x44] 4 0x0004 0x08 = TagType.Unknown ∧
    tag_type_decision_table 4 0x0004 0x08 = TagType.MifareClassic := by
  decide

/-! ## TLV decoder -/

/-- C2: in a 16-byte block where only `0x00` bytes precede a `0x03` at offset
`i ≤ 14` and the byte `b` at `i+1` is not `0xFF`, the decoder returns true with
`message_length = b`, which is at most 254, and `message_start_index = i + 2`. -/
theorem decode_mifare_classic_tlv_short_form (data : List Nat) (ml msi i b : Nat)
    (hlen : data.length = 16) (hbytes : IsBytes data) (hi : i ≤ 14)
    (hz : ∀ j, j < i → data[j]? = some 0) (h3 : data[i]? = some 0x03)
    (h1 : data[i + 1]? = some b) (hne : b ≠ 0xFF) :
    decode_mifare_classic_tlv data ml msi = some ⟨true, b, i + 2⟩ ∧ b ≤ 254 := by
  have hb : b < 256 := hbytes b (List.getElem?_mem h1)
  exact ⟨decode_short_at data ml msi i b hi hz h3 h1 hb hne, by omega⟩

/-- C2, at the block of the specification: `[0x00,0x00,0x03,0x10,0xD1,...]`
decodes to `message_length = 16` and `message_start_index = 4`. -/
theorem decode_mifare_classic_tlv_short_form_witness :
    decode_mifare_classic_tlv [0x00, 0x00, 0x03, 0x10, 0xD1, 0x01, 0x0C, 0x55, 0x01, 0x65,
      0x78, 0x2E, 0x63, 0x6F, 0x6D, 0xFE] 7 9 = some ⟨true, 16, 2 + 2⟩ ∧ 16 ≤ 254 :=
  decode_mifare_classic_tlv_short_form
    [0x00, 0x00, 0x03, 0x10, 0xD1, 0x01, 0x0C, 0x55, 0x01, 0x65, 0x78, 0x2E, 0x63, 0x6F, 0x6D, 0xFE]
    7 9 2 16 (by decide) (by decide) (by decide) (by decide) (by decide) (by decide) (by decide)

/-- C3: in a 16-byte block where only `0x00` bytes precede a `0x03` at offset
`i ≤ 12` and the byte at `i+1` is `0xFF`, the decoder returns true with
`message_length = 256 * byte[i+2] + byte[i+3]` and
`message_start_index = i + 4`. -/
theorem decode_mifare_classic_tlv_long_form (data : List Nat) (ml msi i hi8 lo8 : Nat)
    (hlen : data.length = 16) (hbytes : IsBytes data) (hi : i ≤ 12)
    (hz : ∀ j, j < i → data[j]? = some 0) (h3 : data[i]? = some 0x03)
    (h1 : data[i + 1]? = some 0xFF) (h2 : data[i + 2]? = some hi8)
    (h4 : data[i + 3]? = some lo8) :
    decode_mifare_classic_tlv data ml msi = some ⟨true, 256 * hi8 + lo8, i + 4⟩ := by
  have hhi : hi8 < 256 := hbytes hi8 (List.getElem?_mem h2)
  have hlo : lo8 < 256 := hbytes lo8 (List.getElem?_mem h4)
  exact decode_long_at data ml msi i hi8 lo8 hi hz h3 h1 h2 h4 hhi hlo

/-- C3, at a block with one padding byte and the long-form length 0x0123. -/
theorem decode_mifare_classic_tlv_long_form_witness :
    decode_mifare_classic_tlv [0x00, 0x03, 0xFF, 0x01, 0x23, 0xD1, 0x01, 0x0C, 0x55, 0x01,
      0x65, 0x78, 0x2E, 0x63, 0x6F, 0x6D] 7 9 = some ⟨true, 256 * 1 + 0x23, 1 + 4⟩ :=
  decode_mifare_classic_tlv_long_form
    [0x00, 0x03, 0xFF, 0x01, 0x23, 0xD1, 0x01, 0x0C, 0x55, 0x01, 0x65, 0x78, 0x2E, 0x63, 0x6F, 0x6D]
    7 9 1 0x01 0x23 (by decide) (by decide) (by decide) (by decide) (by decide) (by decide)
    (by decide) (by decide)

/-- C4, evaluated at the failing inputs: on the 16-byte block
`[0x00,0x05,0x03,...]` the scan returns the error code -2 as the `uint8_t`
value 254 and the decoder then reads `data[254]`, outside the block, instead of
returning false; on the all-zero block the same happens with -1, 255. -/
theorem decode_mifare_classic_tlv_malformed_reads_outside :
    get_mifare_classic_ndef_start_index
        [0x00, 0x05, 0x03, 0, 0, 0, 0, 0, 0, 0, 0, 0, 0, 0, 0, 0] = some 254 ∧
    decode_mifare_classic_tlv
        [0x00, 0x05, 0x03, 0, 0, 0, 0, 0, 0, 0, 0, 0, 0, 0, 0, 0] 7 9 = none ∧
    get_mifare_classic_ndef_start_index (List.replicate 16 0) = some 255 ∧
    decode_mifare_classic_tlv (List.replicate 16 0) 7 9 = none := by
  decide

/-- Every run of the decoder that ends with the result false leaves
`message_length` and `message_start_index` as they were passed in.  Such a run
has read `data[254]` or `data[255]` inside the vector, so the vector has at
least 255 bytes (see `decode_mifare_classic_tlv_not_false_of_length_16`). -/
theorem decode_mifare_classic_tlv_failure_keeps_outputs (data : List Nat) (ml msi : Nat)
    (r : TlvResult) (h : decode_mifare_classic_tlv data ml msi = some r)
    (hf : r.ok = false) : r.message_length = ml ∧ r.message_start_index = msi := by
  unfold decode_mifare_classic_tlv at h
  cases hs : get_mifare_classic_ndef_start_index data with
  | none => simp [hs] at h
  | some i =>
    have hneg : ¬ ((i : Int) < 0) := by omega
    simp only [hs, hneg, if_false] at h
    cases hd : data[i]? with
    | none => simp [hd] at h
    | some d =>
      simp only [hd] at h
      by_cases hd3 : d = 0x03
      · simp only [hd3, ne_eq, not_true_eq_false, if_false] at h
        cases h1 : data[i + 1]? with
        | none => simp [h1] at h
        | some d1 =>
          simp only [h1] at h
          by_cases hff : d1 = 0xFF
          · simp only [hff, if_true] at h
            cases h2 : data[i + 2]? with
            | none => simp [h2] at h
            | some d2 =>
              cases h3 : data[i + 3]? with
              | none => simp [h2, h3] at h
              | some d3 =>
                simp [h2, h3] at h
                rw [← h] at hf
                simp at hf
          · simp [hff] at h
            rw [← h] at hf
            simp at hf
      · simp [hd3] at h
        rw [← h]
        exact ⟨rfl, rfl⟩

set_option maxRecDepth 20000 in
/-- The previous statement at a 256-byte vector of `0x00` with prior outputs 7
and 9: the decoder returns false and the outputs are still 7 and 9. -/
theorem decode_mifare_classic_tlv_failure_keeps_outputs_witness :
    decode_mifare_classic_tlv (List.replicate 256 0) 7 9 = some ⟨false, 7, 9⟩ ∧
    ((⟨false, 7, 9⟩ : TlvResult).message_length = 7 ∧
      (⟨false, 7, 9⟩ : TlvResult).message_start_index = 9) :=
  ⟨by decide,
    decode_mifare_classic_tlv_failure_keeps_outputs (List.replicate 256 0) 7 9 ⟨false, 7, 9⟩
      (by decide) rfl⟩

/-- C6: a 16-byte block made of `p` bytes `0x00`, the TLV header encoding
`L ≤ 65535` and arbitrary bytes after it decodes to true, to
`message_length = L`, and to `message_start_index = p + 2` in the short form
(`L ≤ 254`) and `p + 4` in the long form. -/
theorem decode_mifare_classic_tlv_round_trip (p L : Nat) (rest : List Nat) (ml msi : Nat)
    (hL : L ≤ 65535)
    (hlen : (List.replicate p 0 ++ (tlv_header L ++ rest)).length = 16) :
    decode_mifare_classic_tlv (List.replicate p 0 ++ (tlv_header L ++ rest)) ml msi =
      some ⟨true, L, if L ≤ 254 then p + 2 else p + 4⟩ := by
  have hz : ∀ j, j < p → (List.replicate p 0 ++ (tlv_header L ++ rest))[j]? = some 0 :=
    fun j hj => getElem?_zero_padding p _ j hj
  by_cases hs : L ≤ 254
  · have hp : p ≤ 14 := by
      simp [tlv_header, hs] at hlen
      omega
    have h3 : (List.replicate p 0 ++ (tlv_header L ++ rest))[p]? = some 3 := by
      have := getElem?_after_padding p (tlv_header L ++ rest) 0
      simpa [tlv_header, hs] using this
    have h1 : (List.replicate p 0 ++ (tlv_header L ++ rest))[p + 1]? = some L := by
      have := getElem?_after_padding p (tlv_header L ++ rest) 1
      simpa [tlv_header, hs] using this
    simp only [hs, if_true]
    exact decode_short_at _ ml msi p L hp hz h3 h1 (by omega) (by omega)
  · have hp : p ≤ 12 := by
      simp [tlv_header, hs] at hlen
      omega
    have h3 : (List.replicate p 0 ++ (tlv_header L ++ rest))[p]? = some 3 := by
      have := getElem?_after_padding p (tlv_header L ++ rest) 0
      simpa [tlv_header, hs] using this
    have h1 : (List.replicate p 0 ++ (tlv_header L ++ rest))[p + 1]? = some 0xFF := by
      have := getElem?_after_padding p (tlv_header L ++ rest) 1
      simpa [tlv_header, hs] using this
    have h2 : (List.replicate p 0 ++ (tlv_header L ++ rest))[p + 2]? = some (L / 256) := by
      have := getElem?_after_padding p (tlv_header L ++ rest) 2
      simpa [tlv_header, hs] using this
    have h4 : (List.replicate p 0 ++ (tlv_header L ++ rest))[p + 3]? = some (L % 256) := by
      have := getElem?_after_padding p (tlv_header L ++ rest) 3
      simpa [tlv_header, hs] using this
    have hd := decode_long_at _ ml msi p (L / 256) (L % 256) hp hz h3 h1 h2 h4 (by omega)
      (by omega)
    have hL2 : 256 * (L / 256) + L % 256 = L := Nat.div_add_mod L 256
    simp only [hs, if_false]
    rw [hd, hL2]

/-- C6, at three padding bytes, the long-form length 300 and nine bytes after
the header. -/
theorem decode_mifare_classic_tlv_round_trip_witness :
    300 ≤ 65535 ∧
    (List.replicate 3 0 ++ (tlv_header 300 ++ [0xD1, 1, 2, 3, 4, 5, 6, 7, 8])).length = 16 ∧
    decode_mifare_classic_tlv
        (List.replicate 3 0 ++ (tlv_header 300 ++ [0xD1, 1, 2, 3, 4, 5, 6, 7, 8])) 7 9 =
      some ⟨true, 300, if 300 ≤ 254 then 3 + 2 else 3 + 4⟩ :=
  ⟨by decide, by decide,
    decode_mifare_classic_tlv_round_trip 3 300 [0xD1, 1, 2, 3, 4, 5, 6, 7, 8] 7 9
      (by decide) (by decide)⟩

/-- C7 as stated fails: the block `[0x03,0xFF,0x01,0x00,0,...]` decodes to
`message_start_index = 4`, not 5. -/
theorem decode_mifare_classic_tlv_long_example_not_5 :
    decode_mifare_classic_tlv
        [0x03, 0xFF, 0x01, 0x00, 0, 0, 0, 0, 0, 0, 0, 0, 0, 0, 0, 0] 7 9 =
      some ⟨true, 256, 4⟩ ∧
    decode_mifare_classic_tlv
        [0x03, 0xFF, 0x01, 0x00, 0, 0, 0, 0, 0, 0, 0, 0, 0, 0, 0, 0] 7 9 ≠
      some ⟨true, 256, 5⟩ := by
  decide

/-- C7, amended: every block whose first four bytes are `0x03, 0xFF, 0x01,
0x00`, in particular every such 16-byte block, decodes to true with
`message_length = 256` and `message_start_index = 4`. -/
theorem decode_mifare_classic_tlv_long_example (rest : List Nat) (ml msi : Nat) :
    decode_mifare_classic_tlv (0x03 :: 0xFF :: 0x01 :: 0x00 :: rest) ml msi =
      some ⟨true, 256, 4⟩ := by
  have h := decode_long_at (0x03 :: 0xFF :: 0x01 :: 0x00 :: rest) ml msi 0 1 0 (by omega)
    (fun j hj => by omega) (by simp) (by simp) (by simp) (by simp) (by omega) (by omega)
  simpa using h

/-! ## Buffer sizes -/

/-- C8: when `L + 19 < 2^32`, `get_mifare_ultralight_buffer_size L` is a
multiple of 4, is at least `L + 3`, is at most every multiple of 4 that is at
least `L + 3`, and is `L + 3` itself when that is a multiple of 4. -/
theorem get_mifare_ultralight_buffer_size_spec (L : Nat) (h : L + 19 < 4294967296) :
    get_mifare_ultralight_buffer_size L % 4 = 0 ∧
    L + 3 ≤ get_mifare_ultralight_buffer_size L ∧
    (∀ m, m % 4 = 0 → L + 3 ≤ m → get_mifare_ultralight_buffer_size L ≤ m) ∧
    ((L + 3) % 4 = 0 → get_mifare_ultralight_buffer_size L = L + 3) := by
  unfold get_mifare_ultralight_buffer_size MIFARE_ULTRALIGHT_READ_SIZE to_uint32
  simp only
  split
  · refine ⟨by omega, by omega, fun m hm hle => by omega, fun hm => by omega⟩
  · refine ⟨by omega, by omega, fun m hm hle => by omega, fun hm => by omega⟩

/-- C8, at `L = 12`: the raw size is 15 and the result is 16. -/
theorem get_mifare_ultralight_buffer_size_spec_witness :
    get_mifare_ultralight_buffer_size 12 = 16 ∧
    (get_mifare_ultralight_buffer_size 12 % 4 = 0 ∧
      12 + 3 ≤ get_mifare_ultralight_buffer_size 12 ∧
      (∀ m, m % 4 = 0 → 12 + 3 ≤ m → get_mifare_ultralight_buffer_size 12 ≤ m) ∧
      ((12 + 3) % 4 = 0 → get_mifare_ultralight_buffer_size 12 = 12 + 3)) :=
  ⟨by decide, get_mifare_ultralight_buffer_size_spec 12 (by decide)⟩

/-- C9: when `L < 255`, `get_mifare_classic_buffer_size L` is a multiple of 16,
is at least `L + 3`, and is at most every multiple of 16 that is at least
`L + 3`. -/
theorem get_mifare_classic_buffer_size_short (L : Nat) (h : L < 255) :
    get_mifare_classic_buffer_size L % 16 = 0 ∧
    L + 3 ≤ get_mifare_classic_buffer_size L ∧
    (∀ m, m % 16 = 0 → L + 3 ≤ m → get_mifare_classic_buffer_size L ≤ m) := by
  unfold get_mifare_classic_buffer_size MIFARE_CLASSIC_BLOCK_SIZE
    MIFARE_CLASSIC_SHORT_TLV_SIZE MIFARE_CLASSIC_LONG_TLV_SIZE to_uint32
  simp only [h, if_true]
  split
  · refine ⟨by omega, by omega, fun m hm hle => by omega⟩
  · refine ⟨by omega, by omega, fun m hm hle => by omega⟩

/-- C9, at `L = 10`: the raw size is 13 and the result is 16. -/
theorem get_mifare_classic_buffer_size_short_witness :
    get_mifare_classic_buffer_size 10 = 16 ∧
    (get_mifare_classic_buffer_size 10 % 16 = 0 ∧
      10 + 3 ≤ get_mifare_classic_buffer_size 10 ∧
      (∀ m, m % 16 = 0 → 10 + 3 ≤ m → get_mifare_classic_buffer_size 10 ≤ m)) :=
  ⟨by decide, get_mifare_classic_buffer_size_short 10 (by decide)⟩

/-- C10 as stated fails at `L = 300`: `L + 4 = 304` is a multiple of 16, yet the
result is 320, which is neither `L + 4` nor the smallest multiple of 16 that
is at least `L + 4`. -/
theorem get_mifare_classic_buffer_size_300 :
    255 ≤ 300 ∧ 300 + 20 < 4294967296 ∧ (300 + 4) % 16 = 0 ∧
    get_mifare_classic_buffer_size 300 = 320 ∧
    get_mifare_classic_buffer_size 300 ≠ 300 + 4 ∧
    ¬ (∀ m, m % 16 = 0 → 300 + 4 ≤ m → get_mifare_classic_buffer_size 300 ≤ m) := by
  refine ⟨by decide, by decide, by decide, by decide, by decide, ?_⟩
  intro hmin
  have h := hmin 304 (by decide) (by decide)
  revert h
  decide

/-- C10, amended: when `255 ≤ L` and `L + 20 < 2^32`,
`get_mifare_classic_buffer_size L` is a multiple of 16, is at least `L + 5`,
is at most every multiple of 16 that is at least `L + 5`, and is `L + 5`
itself when that is a multiple of 16. -/
theorem get_mifare_classic_buffer_size_long (L : Nat) (h : 255 ≤ L)
    (hw : L + 20 < 4294967296) :
    get_mifare_classic_buffer_size L % 16 = 0 ∧
    L + 5 ≤ get_mifare_classic_buffer_size L ∧
    (∀ m, m % 16 = 0 → L + 5 ≤ m → get_mifare_classic_buffer_size L ≤ m) ∧
    ((L + 5) % 16 = 0 → get_mifare_classic_buffer_size L = L + 5) := by
  have hnot : ¬ L < 255 := by omega
  unfold get_mifare_classic_buffer_size MIFARE_CLASSIC_BLOCK_SIZE
    MIFARE_CLASSIC_SHORT_TLV_SIZE MIFARE_CLASSIC_LONG_TLV_SIZE to_uint32
  simp only [hnot, if_false]
  split
  · refine ⟨by omega, by omega, fun m hm hle => by omega, fun hm => by omega⟩
  · refine ⟨by omega, by omega, fun m hm hle => by omega, fun hm => by omega⟩

/-- C10 amended, at `L = 300` (raw size 305, result 320) and at `L = 299`, where
the raw size 304 is already a multiple of 16 and is returned unchanged. -/
theorem get_mifare_classic_buffer_size_long_witness :
    get_mifare_classic_buffer_size 299 = 304 ∧
    (get_mifare_classic_buffer_size 300 % 16 = 0 ∧
      300 + 5 ≤ get_mifare_classic_buffer_size 300 ∧
      (∀ m, m % 16 = 0 → 300 + 5 ≤ m → get_mifare_classic_buffer_size 300 ≤ m) ∧
      ((300 + 5) % 16 = 0 → get_mifare_classic_buffer_size 300 = 300 + 5)) :=
  ⟨by decide, get_mifare_classic_buffer_size_long 300 (by decide) (by decide)⟩

/-! ## Block classification -/

/-- C11: for every 8-bit block number `n`, `mifare_classic_is_first_block n` is
true exactly when `n` is the first block of one of the sectors 0..39, where
sector `s < 32` starts at block `4s` and sector `s ≥ 32` at `128 + 16(s-32)`. -/
theorem mifare_classic_is_first_block_geometry (n : Nat) (h : n < 256) :
    mifare_classic_is_first_block n = true ↔ ∃ s, s ≤ 39 ∧ n = sector_first_block s := by
  unfold mifare_classic_is_first_block sector_first_block
  constructor
  · intro hf
    by_cases hn : n < 128
    · simp only [hn, if_true, beq_iff_eq] at hf
      refine ⟨n / 4, by omega, ?_⟩
      have : n / 4 < 32 := by omega
      simp only [this, if_true]
      omega
    · simp only [hn, if_false, beq_iff_eq] at hf
      refine ⟨32 + (n - 128) / 16, by omega, ?_⟩
      have : ¬ (32 + (n - 128) / 16 < 32) := by omega
      simp only [this, if_false]
      omega
  · rintro ⟨s, hs, rfl⟩
    by_cases h32 : s < 32
    · have : 4 * s < 128 := by omega
      simp only [h32, if_true, this, beq_iff_eq]
      omega
    · have : ¬ (128 + 16 * (s - 32) < 128) := by omega
      simp only [h32, if_false, this, beq_iff_eq]
      omega

/-- C11, at the block numbers of the specification: 0 and 128 are first
blocks, 3 and 131 are not. -/
theorem mifare_classic_is_first_block_geometry_witness :
    mifare_classic_is_first_block 0 = true ∧ mifare_classic_is_first_block 3 = false ∧
    mifare_classic_is_first_block 128 = true ∧ mifare_classic_is_first_block 131 = false ∧
    (mifare_classic_is_first_block 128 = true ↔ ∃ s, s ≤ 39 ∧ 128 = sector_first_block s) :=
  ⟨by decide, by decide, by decide, by decide,
    mifare_classic_is_first_block_geometry 128 (by decide)⟩

/-- C12: for every 8-bit block number `n`, 255 included,
`mifare_classic_is_trailer_block n` is true exactly when `n` is the last block
of one of the sectors 0..39, that is `n = 4s + 3` with `s < 32` or
`n = 128 + 16k + 15` with `k ≤ 7`. -/
theorem mifare_classic_is_trailer_block_geometry (n : Nat) (h : n < 256) :
    (mifare_classic_is_trailer_block n = true ↔
      ∃ s, s ≤ 39 ∧ n + 1 = sector_first_block s + sector_block_count s) ∧
    (mifare_classic_is_trailer_block n = true ↔
      (∃ s, s < 32 ∧ n = 4 * s + 3) ∨ (∃ k, k ≤ 7 ∧ n = 128 + 16 * k + 15)) := by
  unfold mifare_classic_is_trailer_block sector_first_block sector_block_count
  by_cases hn : n < 128
  · simp only [hn, if_true, beq_iff_eq]
    refine ⟨⟨fun hf => ⟨n / 4, by omega, ?_⟩, ?_⟩, ⟨fun hf => Or.inl ⟨n / 4, by omega, by omega⟩, ?_⟩⟩
    · have : n / 4 < 32 := by omega
      simp only [this, if_true]
      omega
    · rintro ⟨s, hs, hs2⟩
      by_cases h32 : s < 32
      · simp only [h32, if_true] at hs2
        omega
      · simp only [h32, if_false] at hs2
        omega
    · rintro (⟨s, hs, rfl⟩ | ⟨k, hk, rfl⟩) <;> omega
  · simp only [hn, if_false, beq_iff_eq]
    refine ⟨⟨fun hf => ⟨32 + (n - 128) / 16, by omega, ?_⟩, ?_⟩,
      ⟨fun hf => Or.inr ⟨(n - 128) / 16, by omega, by omega⟩, ?_⟩⟩
    · have : ¬ (32 + (n - 128) / 16 < 32) := by omega
      simp only [this, if_false]
      omega
    · rintro ⟨s, hs, hs2⟩
      by_cases h32 : s < 32
      · simp only [h32, if_true] at hs2
        omega
      · simp only [h32, if_false] at hs2
        omega
    · rintro (⟨s, hs, rfl⟩ | ⟨k, hk, rfl⟩) <;> omega

/-- C12, at the block numbers of the specification, 3 and 143, and at 255,
where `n + 1` does not fit 8 bits. -/
theorem mifare_classic_is_trailer_block_geometry_witness :
    mifare_classic_is_trailer_block 3 = true ∧ mifare_classic_is_trailer_block 143 = true ∧
    mifare_classic_is_trailer_block 255 = true ∧
    ((mifare_classic_is_trailer_block 255 = true ↔
      ∃ s, s ≤ 39 ∧ 255 + 1 = sector_first_block s + sector_block_count s) ∧
    (mifare_classic_is_trailer_block 255 = true ↔
      (∃ s, s < 32 ∧ 255 = 4 * s + 3) ∨ (∃ k, k ≤ 7 ∧ 255 = 128 + 16 * k + 15))) :=
  ⟨by decide, by decide, by decide, mifare_classic_is_trailer_block_geometry 255 (by decide)⟩

/-- C13: no block number is classified both as a first block and as a trailer
block; this holds for every natural number, so for every `n` in 0..255. -/
theorem mifare_classic_first_trailer_exclusive (n : Nat) :
    ¬ (mifare_classic_is_first_block n = true ∧ mifare_classic_is_trailer_block n = true) := by
  unfold mifare_classic_is_first_block mifare_classic_is_trailer_block
  by_cases hn : n < 128
  · simp only [hn, if_true, beq_iff_eq]
    omega
  · simp only [hn, if_false, beq_iff_eq]
    omega

/-! ## Coarse classifier -/

/-- The function `guess_tag_type` returns MifareClassic for length 4 and Type2
for every other length, hence none of Unknown, MifareUltralight and
MifareDESFire. -/
theorem guess_tag_type_values (uid_length : Nat) :
    (uid_length = 4 → guess_tag_type uid_length = TagType.MifareClassic) ∧
    (uid_length ≠ 4 → guess_tag_type uid_length = TagType.Type2) ∧
    guess_tag_type uid_length ≠ TagType.Unknown ∧
    guess_tag_type uid_length ≠ TagType.MifareUltralight ∧
    guess_tag_type uid_length ≠ TagType.MifareDESFire := by
  unfold guess_tag_type
  by_cases h : uid_length = 4 <;> simp [h]

/-- When `get_tag_type` answers MifareClassic, the vector `uid` has 4 bytes, and
`guess_tag_type` on the size of `uid` answers MifareClassic. -/
theorem guess_tag_type_on_uid_size (uid : List Nat) (uid_length atqa sak : Nat)
    (h : get_tag_type uid uid_length atqa sak = TagType.MifareClassic) :
    guess_tag_type uid.length = TagType.MifareClassic := by
  unfold get_tag_type at h
  unfold guess_tag_type
  by_cases h4 : uid.length = 4
  · simp [h4]
  · exfalso
    simp only [h4, false_and, if_false] at h
    split at h <;> first | exact TagType.noConfusion h | (split at h <;> exact TagType.noConfusion h)

/-- C16, evaluated at the failing input: with `uid` a 4-byte vector, the call
`get_tag_type(7, 0x0004, 0x08)` yields MifareClassic while
`guess_tag_type(7)`, on the same UID length, yields Type2. -/
theorem guess_tag_type_disagrees_with_get_tag_type :
    get_tag_type [0x04, 0xA2, 0xFF, 0x11] 7 0x0004 0x08 = TagType.MifareClassic ∧
    guess_tag_type 7 = TagType.Type2 := by
  decide

/-! ## Start-index scan -/

/-- Scanning from index `k` with `n` iterations left over bytes that are all
`0x00`: the loop runs out and returns -1 as a `uint8_t`, 255. -/
theorem ndef_start_index_loop_all_zero (data : List Nat) :
    ∀ (n k : Nat), (∀ j, k ≤ j → j < k + n → data[j]? = some 0) →
      ndef_start_index_loop data n k = some 255 := by
  intro n
  induction n with
  | zero =>
    intro k _
    simp only [ndef_start_index_loop, Option.some.injEq]
    decide
  | succ n ih =>
    intro k hz
    unfold ndef_start_index_loop
    have hk0 : data[k]? = some 0 := hz k (Nat.le_refl k) (by omega)
    simp only [hk0, if_true]
    exact ih (k + 1) (fun j hj hlt => hz j (by omega) (by omega))

/-- Scanning from index `k`: when every byte from `k` up to `i` is `0x00` and the
byte at `i` is neither `0x00` nor `0x03`, the loop returns -2 as a `uint8_t`,
254. -/
theorem ndef_start_index_loop_malformed (data : List Nat) (i b : Nat)
    (hb : data[i]? = some b) (hb0 : b ≠ 0) (hb3 : b ≠ 3) :
    ∀ (n k : Nat), k ≤ i → i < k + n →
      (∀ j, k ≤ j → j < i → data[j]? = some 0) →
      ndef_start_index_loop data n k = some 254 := by
  intro n
  induction n with
  | zero => intro k hk hlt _; omega
  | succ n ih =>
    intro k hk hlt hz
    unfold ndef_start_index_loop
    by_cases hki : k = i
    · subst hki
      simp only [hb, hb0, hb3, if_false, Option.some.injEq]
      decide
    · have hk0 : data[k]? = some 0 := hz k (Nat.le_refl k) (by omega)
      simp only [hk0, if_true]
      exact ih (k + 1) (by omega) (by omega) (fun j hj hji => hz j (by omega) hji)

/-- The three outcomes of `get_mifare_classic_ndef_start_index` on a block: the
offset of a `0x03` that only `0x00` bytes precede; 254, which is -2 as a
`uint8_t`, when the first non-zero byte is not `0x03`; 255, which is -1, when
the 16 bytes are `0x00`.  Both error codes lie outside 0..15. -/
theorem get_mifare_classic_ndef_start_index_outcomes (data : List Nat) :
    (∀ i, i < 16 → (∀ j, j < i → data[j]? = some 0) → data[i]? = some 3 →
      get_mifare_classic_ndef_start_index data = some i) ∧
    (∀ i b, i < 16 → (∀ j, j < i → data[j]? = some 0) → data[i]? = some b → b ≠ 0 → b ≠ 3 →
      get_mifare_classic_ndef_start_index data = some 254) ∧
    ((∀ j, j < 16 → data[j]? = some 0) →
      get_mifare_classic_ndef_start_index data = some 255) := by
  refine ⟨fun i hi hz h3 => get_mifare_classic_ndef_start_index_found data i hi hz h3, ?_, ?_⟩
  · intro i b hi hz hb hb0 hb3
    unfold get_mifare_classic_ndef_start_index MIFARE_CLASSIC_BLOCK_SIZE
    exact ndef_start_index_loop_malformed data i b hb hb0 hb3 16 0 (Nat.zero_le i) (by omega)
      (fun j _ hji => hz j hji)
  · intro hz
    unfold get_mifare_classic_ndef_start_index MIFARE_CLASSIC_BLOCK_SIZE
    exact ndef_start_index_loop_all_zero data 16 0 (fun j _ hlt => hz j (by omega))

/-- No value returned by `get_mifare_classic_ndef_start_index` satisfies the
test `i < 0` of the caller: the return type is unsigned. -/
theorem get_mifare_classic_ndef_start_index_not_negative (data : List Nat) (i : Nat)
    (h : get_mifare_classic_ndef_start_index data = some i) : ¬ ((i : Int) < 0) := by
  omega

/-- C17, evaluated at the failing inputs: on the all-zero block the scan returns
-1 as the `uint8_t` value 255, on the block `[0x00,0x00,0x07,0,...]` it
returns -2 as 254; neither value is below 0 for the test `i < 0`, and the
decoder started on these blocks does not return false. -/
theorem get_mifare_classic_ndef_start_index_error_codes_pass_check :
    get_mifare_classic_ndef_start_index (List.replicate 16 0) = some 255 ∧
    ¬ (((255 : Nat) : Int) < 0) ∧
    get_mifare_classic_ndef_start_index
        [0x00, 0x00, 0x07, 0, 0, 0, 0, 0, 0, 0, 0, 0, 0, 0, 0, 0] = some 254 ∧
    ¬ (((254 : Nat) : Int) < 0) ∧
    decode_mifare_classic_tlv (List.replicate 16 0) 0 0 ≠ some ⟨false, 0, 0⟩ ∧
    decode_mifare_classic_tlv
        [0x00, 0x00, 0x07, 0, 0, 0, 0, 0, 0, 0, 0, 0, 0, 0, 0, 0] 0 0 ≠ some ⟨false, 0, 0⟩ := by
  decide

/-! ## Indices read by the decoder -/

/-- The scan ends without a result exactly when one of the indices it reads
lies outside the vector. -/
theorem ndef_start_index_loop_none_iff (data : List Nat) :
    ∀ (n k : Nat), ndef_start_index_loop data n k = none ↔
      ∃ j ∈ ndef_start_index_loop_reads data n k, data.length ≤ j := by
  intro n
  induction n with
  | zero =>
    intro k
    simp [ndef_start_index_loop, ndef_start_index_loop_reads]
  | succ n ih =>
    intro k
    unfold ndef_start_index_loop ndef_start_index_loop_reads
    cases hd : data[k]? with
    | none =>
      have hk : data.length ≤ k := List.getElem?_eq_none_iff.mp hd
      simp [hk]
    | some b =>
      have hk : k < data.length := by
        rcases List.getElem?_eq_some_iff.mp hd with ⟨hlt, _⟩
        exact hlt
      by_cases hb0 : b = 0
      · simp only [hb0, if_true, List.mem_cons, exists_eq_or_imp]
        rw [ih (k + 1)]
        constructor
        · intro hex
          exact Or.inr hex
        · rintro (hle | hex)
          · omega
          · exact hex
      · by_cases hb3 : b = 3
        · simp [hb3]
          omega
        · simp [hb0, hb3]
          omega

/-- The decoder ends without a result exactly when one of the indices it reads
lies outside the vector. -/
theorem decode_mifare_classic_tlv_none_iff (data : List Nat) (ml msi : Nat) :
    decode_mifare_classic_tlv data ml msi = none ↔
      ∃ j ∈ decode_mifare_classic_tlv_reads data, data.length ≤ j := by
  have hloop := ndef_start_index_loop_none_iff data MIFARE_CLASSIC_BLOCK_SIZE 0
  unfold decode_mifare_classic_tlv decode_mifare_classic_tlv_reads
  cases hs : get_mifare_classic_ndef_start_index data with
  | none =>
    have hs2 : ndef_start_index_loop data MIFARE_CLASSIC_BLOCK_SIZE 0 = none := hs
    simpa using hloop.mp hs2
  | some i =>
    have hs2 : ndef_start_index_loop data MIFARE_CLASSIC_BLOCK_SIZE 0 = some i := hs
    have hin : ¬ ∃ j ∈ ndef_start_index_loop_reads data MIFARE_CLASSIC_BLOCK_SIZE 0,
        data.length ≤ j := by
      intro hex
      have := hloop.mpr hex
      rw [hs2] at this
      exact Option.noConfusion this
    have hneg : ¬ ((i : Int) < 0) := by omega
    simp only [hneg, if_false, List.mem_append, or_and_right, exists_or]
    have hsplit : ∀ (P : Prop), ((∃ j ∈ ndef_start_index_loop_reads data
        MIFARE_CLASSIC_BLOCK_SIZE 0, data.length ≤ j) ∨ P) ↔ P :=
      fun P => ⟨fun h => h.resolve_left hin, Or.inr⟩
    rw [hsplit]
    cases hd : data[i]? with
    | none =>
      have hk : data.length ≤ i := List.getElem?_eq_none_iff.mp hd
      simp [hk]
    | some d =>
      have hk : i < data.length := (List.getElem?_eq_some_iff.mp hd).1
      by_cases hd3 : d = 3
      · subst hd3
        cases h1 : data[i + 1]? with
        | none =>
          have hk1 : data.length ≤ i + 1 := List.getElem?_eq_none_iff.mp h1
          simp [hk1]
        | some d1 =>
          have hk1 : i + 1 < data.length := (List.getElem?_eq_some_iff.mp h1).1
          by_cases hff : d1 = 0xFF
          · subst hff
            cases h2 : data[i + 2]? with
            | none =>
              have hk2 : data.length ≤ i + 2 := List.getElem?_eq_none_iff.mp h2
              simp [hk2]
            | some d2 =>
              have hk2 : i + 2 < data.length := (List.getElem?_eq_some_iff.mp h2).1
              cases h3 : data[i + 3]? with
              | none =>
                have hk3 : data.length ≤ i + 3 := List.getElem?_eq_none_iff.mp h3
                simp [hk3]
              | some d3 =>
                have hk3 : i + 3 < data.length := (List.getElem?_eq_some_iff.mp h3).1
                simp
                omega
          · simp [hff]
            omega
      · simp [hd3]
        omega

/-- C18, evaluated at the failing inputs: on the all-zero 16-byte block the
decoder reads index 255; with the `0x03` tag at offset 15 it reads index 16;
with the tag at offset 13 and the long-form marker at 14 it reads index 16. -/
theorem decode_mifare_classic_tlv_reads_outside_block :
    decode_mifare_classic_tlv_reads (List.replicate 16 0) =
      [0, 1, 2, 3, 4, 5, 6, 7, 8, 9, 10, 11, 12, 13, 14, 15, 255] ∧
    decode_mifare_classic_tlv_reads (List.replicate 15 0 ++ [0x03]) =
      [0, 1, 2, 3, 4, 5, 6, 7, 8, 9, 10, 11, 12, 13, 14, 15, 15, 16] ∧
    decode_mifare_classic_tlv_reads (List.replicate 13 0 ++ [0x03, 0xFF, 0x01]) =
      [0, 1, 2, 3, 4, 5, 6, 7, 8, 9, 10, 11, 12, 13, 13, 14, 15, 16] ∧
    ¬ (∀ j ∈ decode_mifare_classic_tlv_reads (List.replicate 16 0), j < 16) ∧
    ¬ (∀ j ∈ decode_mifare_classic_tlv_reads (List.replicate 15 0 ++ [0x03]), j < 16) := by
  decide

/-- When the decoder ends with a result, every index it has read lies inside
the vector. -/
theorem decode_mifare_classic_tlv_reads_inside (data : List Nat) (ml msi : Nat)
    (r : TlvResult) (h : decode_mifare_classic_tlv data ml msi = some r) :
    ∀ j ∈ decode_mifare_classic_tlv_reads data, j < data.length := by
  intro j hj
  by_contra hlt
  have hnone := (decode_mifare_classic_tlv_none_iff data ml msi).mpr ⟨j, hj, by omega⟩
  rw [hnone] at h
  exact Option.noConfusion h

/-! ## Buffer size against the decoded header -/

/-- C19: for every `L ≤ 65535`, a vector that starts with the TLV header
encoding `L` decodes to true with `message_length = L` and some
`message_start_index`, and `get_mifare_classic_buffer_size L` is at least
`message_start_index + L + 1` and is a positive multiple of 16. -/
theorem get_mifare_classic_buffer_size_covers_decoded (L : Nat) (rest : List Nat)
    (ml msi : Nat) (hL : L ≤ 65535) :
    ∃ start, decode_mifare_classic_tlv (tlv_header L ++ rest) ml msi = some ⟨true, L, start⟩ ∧
      start + L + 1 ≤ get_mifare_classic_buffer_size L ∧
      get_mifare_classic_buffer_size L % 16 = 0 ∧ 0 < get_mifare_classic_buffer_size L := by
  have hz : ∀ j, j < 0 → (tlv_header L ++ rest)[j]? = some 0 := fun j hj => by omega
  by_cases hs : L ≤ 254
  · have h3 : (tlv_header L ++ rest)[0]? = some 3 := by simp [tlv_header, hs]
    have h1 : (tlv_header L ++ rest)[0 + 1]? = some L := by simp [tlv_header, hs]
    have hd := decode_short_at _ ml msi 0 L (by omega) hz h3 h1 (by omega) (by omega)
    refine ⟨0 + 2, hd, ?_⟩
    have hlt : L < 255 := by omega
    unfold get_mifare_classic_buffer_size MIFARE_CLASSIC_BLOCK_SIZE
      MIFARE_CLASSIC_SHORT_TLV_SIZE MIFARE_CLASSIC_LONG_TLV_SIZE to_uint32
    simp only [hlt, if_true]
    split <;> omega
  · have h3 : (tlv_header L ++ rest)[0]? = some 3 := by simp [tlv_header, hs]
    have h1 : (tlv_header L ++ rest)[0 + 1]? = some 0xFF := by simp [tlv_header, hs]
    have h2 : (tlv_header L ++ rest)[0 + 2]? = some (L / 256) := by simp [tlv_header, hs]
    have h4 : (tlv_header L ++ rest)[0 + 3]? = some (L % 256) := by simp [tlv_header, hs]
    have hd := decode_long_at _ ml msi 0 (L / 256) (L % 256) (by omega) hz h3 h1 h2 h4
      (by omega) (by omega)
    have hL2 : 256 * (L / 256) + L % 256 = L := Nat.div_add_mod L 256
    rw [hL2] at hd
    refine ⟨0 + 4, hd, ?_⟩
    have hlt : ¬ L < 255 := by omega
    unfold get_mifare_classic_buffer_size MIFARE_CLASSIC_BLOCK_SIZE
      MIFARE_CLASSIC_SHORT_TLV_SIZE MIFARE_CLASSIC_LONG_TLV_SIZE to_uint32
    simp only [hlt, if_false]
    split <;> omega

/-- C19, at `L = 300` with twelve bytes after the header: the decoder gives
start index 4 and the buffer size 320 covers `4 + 300 + 1`. -/
theorem get_mifare_classic_buffer_size_covers_decoded_witness :
    300 ≤ 65535 ∧ get_mifare_classic_buffer_size 300 = 320 ∧
    ∃ start, decode_mifare_classic_tlv
        (tlv_header 300 ++ [0xD1, 1, 2, 3, 4, 5, 6, 7, 8, 9, 10, 11]) 7 9 =
          some ⟨true, 300, start⟩ ∧
      start + 300 + 1 ≤ get_mifare_classic_buffer_size 300 ∧
      get_mifare_classic_buffer_size 300 % 16 = 0 ∧ 0 < get_mifare_classic_buffer_size 300 :=
  ⟨by decide, by decide,
    get_mifare_classic_buffer_size_covers_decoded 300
      [0xD1, 1, 2, 3, 4, 5, 6, 7, 8, 9, 10, 11] 7 9 (by decide)⟩

/-! ## Formatters -/

/-- A hexadecimal digit is neither the NUL character nor one of the two
separators. -/
theorem hex_upper_ne (d : Nat) (h : d < 16) :
    hex_upper d ≠ NUL ∧ hex_upper d ≠ Char.ofNat 45 ∧ hex_upper d ≠ Char.ofNat 32 := by
  interval_cases d <;> decide

theorem hex_joined_singleton (sep : Char) (x : Nat) :
    hex_joined sep [x] = sprintf_02X x := by
  simp [hex_joined, List.intercalate]

theorem hex_joined_cons_cons (sep : Char) (x y : Nat) (r : List Nat) :
    hex_joined sep (x :: y :: r) = sprintf_02X x ++ [sep] ++ hex_joined sep (y :: r) := by
  simp [hex_joined, List.intercalate]

/-- A property that holds of the separator and of every hexadecimal digit holds
of every character of the joined renderings of bytes. -/
theorem hex_joined_forall (P : Char → Prop) (sep : Char) (hsep : P sep)
    (hhex : ∀ d, d < 16 → P (hex_upper d)) :
    ∀ (b : List Nat), IsBytes b → ∀ c ∈ hex_joined sep b, P c := by
  intro b
  induction b with
  | nil => intro _ c hc; simp [hex_joined, List.intercalate] at hc
  | cons x r ih =>
    intro hb c hc
    have hx : x < 256 := hb x (List.mem_cons_self x r)
    have hr : IsBytes r := fun y hy => hb y (List.mem_cons_of_mem x hy)
    have hdig : ∀ c ∈ sprintf_02X x, P c := by
      intro c hc
      simp only [sprintf_02X, List.mem_cons, List.mem_singleton, List.not_mem_nil,
        or_false] at hc
      rcases hc with rfl | rfl
      · exact hhex _ (by omega)
      · exact hhex _ (by omega)
    cases r with
    | nil =>
      rw [hex_joined_singleton] at hc
      exact hdig c hc
    | cons y r2 =>
      rw [hex_joined_cons_cons] at hc
      simp only [List.mem_append, List.mem_singleton] at hc
      rcases hc with (hc | rfl) | hc
      · exact hdig c hc
      · exact hsep
      · exact ih hr c hc

/-- The joined renderings of `n ≥ 1` bytes have `3n - 1` characters. -/
theorem hex_joined_length (sep : Char) :
    ∀ (b : List Nat), b ≠ [] → (hex_joined sep b).length + 1 = 3 * b.length := by
  intro b
  induction b with
  | nil => intro h; exact absurd rfl h
  | cons x r ih =>
    intro _
    cases r with
    | nil => simp [hex_joined_singleton, sprintf_02X]
    | cons y r2 =>
      have := ih (List.cons_ne_nil y r2)
      rw [hex_joined_cons_cons]
      simp only [List.length_append, List.length_cons, List.length_nil, sprintf_02X] at this ⊢
      omega

/-- The joined renderings start with the high digit of the first byte. -/
theorem hex_joined_head (sep : Char) (x : Nat) (r : List Nat) :
    (hex_joined sep (x :: r)).head? = some (hex_upper (x / 16)) := by
  cases r with
  | nil => simp [hex_joined_singleton, sprintf_02X]
  | cons y r2 => simp [hex_joined_cons_cons, sprintf_02X]

/-- The joined renderings end with a hexadecimal digit. -/
theorem hex_joined_last (sep : Char) :
    ∀ (b : List Nat), b ≠ [] → IsBytes b →
      ∃ d, d < 16 ∧ (hex_joined sep b).getLast? = some (hex_upper d) := by
  intro b
  induction b with
  | nil => intro h; exact absurd rfl h
  | cons x r ih =>
    intro _ hb
    have hr : IsBytes r := fun y hy => hb y (List.mem_cons_of_mem x hy)
    cases r with
    | nil =>
      refine ⟨x % 16, by omega, ?_⟩
      simp [hex_joined_singleton, sprintf_02X]
    | cons y r2 =>
      rcases ih (List.cons_ne_nil y r2) hr with ⟨d, hd, hlast⟩
      refine ⟨d, hd, ?_⟩
      rw [hex_joined_cons_cons, List.getLast?_append, hlast]
      rfl

/-- Reading a C string back from characters without NUL followed by a NUL. -/
theorem read_c_string_append_NUL :
    ∀ (cs : List Char), (∀ c ∈ cs, c ≠ NUL) → read_c_string (cs ++ [NUL]) = some cs := by
  intro cs
  induction cs with
  | nil => intro _; simp [read_c_string]
  | cons c r ih =>
    intro h
    have hc : c ≠ NUL := h c (List.mem_cons_self c r)
    have hr := ih (fun c2 hc2 => h c2 (List.mem_cons_of_mem c hc2))
    simp [read_c_string, hc, hr]

/-- A `sprintf` at the end of what has been stored: with `acc` the characters
before `offset` and at most the previous NUL after them, the stored characters
become `acc`, the text and a NUL. -/
theorem sprintf_at_end (mem acc text : List Char) (h1 : mem.take acc.length = acc)
    (h2 : mem.length ≤ acc.length + 1) :
    sprintf mem acc.length text = (acc ++ text ++ [NUL], text.length) := by
  unfold sprintf
  have hdrop : mem.drop (acc.length + text.length + 1) = [] :=
    List.drop_eq_nil_of_le (by omega)
  rw [h1, hdrop, List.append_nil]

/-- The loop of the formatters, entered at index `i` with at least one byte
left: it stores the joined renderings of the bytes from `i` on, and a NUL,
after what was stored before `offset`. -/
theorem format_loop_stores (sep : Char) (bytes : List Nat) :
    ∀ (n i : Nat) (acc mem : List Char), i + (n + 1) = bytes.length →
      mem.take acc.length = acc → mem.length ≤ acc.length + 1 →
      format_loop [sep] bytes (n + 1) i mem acc.length =
        some (acc ++ hex_joined sep (bytes.drop i) ++ [NUL],
          acc.length + (hex_joined sep (bytes.drop i)).length) := by
  intro n
  induction n with
  | zero =>
    intro i acc mem hi h1 h2
    have hlt : i < bytes.length := by omega
    have hdrop : bytes.drop i = [bytes[i]] := by
      rw [List.drop_eq_getElem_cons hlt, List.drop_eq_nil_of_le (by omega)]
    have hnot : ¬ (i + 1 < bytes.length) := by omega
    unfold format_loop
    simp only [List.getElem?_eq_getElem hlt, hnot, if_false]
    rw [sprintf_at_end mem acc _ h1 h2]
    simp only [format_loop, hdrop, hex_joined_singleton]
  | succ n ih =>
    intro i acc mem hi h1 h2
    have hlt : i < bytes.length := by omega
    have hlt2 : i + 1 < bytes.length := by omega
    have hdrop : bytes.drop i = bytes[i] :: bytes[i + 1] :: bytes.drop (i + 1 + 1) := by
      rw [List.drop_eq_getElem_cons hlt, List.drop_eq_getElem_cons hlt2]
    have hdrop2 : bytes.drop (i + 1) = bytes[i + 1] :: bytes.drop (i + 1 + 1) :=
      List.drop_eq_getElem_cons hlt2
    unfold format_loop
    simp only [List.getElem?_eq_getElem hlt, hlt2, if_true]
    rw [sprintf_at_end mem acc _ h1 h2]
    have hlen : acc.length + (sprintf_02X bytes[i] ++ [sep]).length =
        (acc ++ (sprintf_02X bytes[i] ++ [sep])).length := by
      simp
    simp only [hlen]
    rw [ih (i + 1) (acc ++ (sprintf_02X bytes[i] ++ [sep]))
      (acc ++ (sprintf_02X bytes[i] ++ [sep]) ++ [NUL]) (by omega) (List.take_left' rfl)
      (by simp only [List.length_append, List.length_cons, List.length_nil]; omega)]
    rw [hdrop, hex_joined_cons_cons, ← hdrop2]
    simp only [List.append_assoc, List.length_append, Option.some.injEq, Prod.mk.injEq,
      true_and]
    omega

/-- What the loop of a formatter has stored for a non-empty vector: the joined
renderings and the terminating NUL, `3n` characters in all. -/
theorem format_loop_stored_all (sep : Char) (bytes : List Nat) (hne : bytes ≠ []) :
    (format_loop [sep] bytes bytes.length 0 [] 0).map (fun r => r.1) =
      some (hex_joined sep bytes ++ [NUL]) := by
  obtain ⟨n, hn⟩ : ∃ n, bytes.length = n + 1 := by
    cases bytes with
    | nil => exact absurd rfl hne
    | cons x r => exact ⟨r.length, rfl⟩
  have h := format_loop_stores sep bytes n 0 [] [] (by omega) (by simp) (by simp)
  simp only [List.length_nil, List.drop_zero, List.nil_append] at h
  rw [hn, h]
  rfl

/-- What the formatters store for a non-empty vector `b` of `n` bytes: the
two-digit uppercase hexadecimal renderings of the bytes joined by the hyphen
(character 45), respectively the space (character 32), followed by the
terminating NUL; the joined renderings have `3n - 1` characters, hold no NUL
and neither start nor end with the separator. -/
theorem format_stored_content (b : List Nat) (hne : b ≠ []) (hb : IsBytes b) :
    format_uid_stored b = some (hex_joined (Char.ofNat 45) b ++ [NUL]) ∧
    format_bytes_stored b = some (hex_joined (Char.ofNat 32) b ++ [NUL]) ∧
    (hex_joined (Char.ofNat 45) b).length = 3 * b.length - 1 ∧
    (hex_joined (Char.ofNat 32) b).length = 3 * b.length - 1 ∧
    (∀ c ∈ hex_joined (Char.ofNat 45) b, c ≠ NUL) ∧
    (∀ c ∈ hex_joined (Char.ofNat 32) b, c ≠ NUL) ∧
    (hex_joined (Char.ofNat 45) b).head? ≠ some (Char.ofNat 45) ∧
    (hex_joined (Char.ofNat 45) b).getLast? ≠ some (Char.ofNat 45) ∧
    (hex_joined (Char.ofNat 32) b).head? ≠ some (Char.ofNat 32) ∧
    (hex_joined (Char.ofNat 32) b).getLast? ≠ some (Char.ofNat 32) := by
  have hl1 := hex_joined_length (Char.ofNat 45) b hne
  have hl2 := hex_joined_length (Char.ofNat 32) b hne
  obtain ⟨x0, r0, hxr⟩ : ∃ x0 r0, b = x0 :: r0 := by
    cases b with
    | nil => exact absurd rfl hne
    | cons x r => exact ⟨x, r, rfl⟩
  have hx0 : x0 < 256 := hb x0 (by rw [hxr]; exact List.mem_cons_self x0 r0)
  have hd0 : x0 / 16 < 16 := by omega
  rcases hex_joined_last (Char.ofNat 45) b hne hb with ⟨d1, hd1, hlast1⟩
  rcases hex_joined_last (Char.ofNat 32) b hne hb with ⟨d2, hd2, hlast2⟩
  refine ⟨format_loop_stored_all (Char.ofNat 45) b hne,
    format_loop_stored_all (Char.ofNat 32) b hne, by omega, by omega,
    hex_joined_forall (fun c => c ≠ NUL) (Char.ofNat 45) (by decide)
      (fun d hd => (hex_upper_ne d hd).1) b hb,
    hex_joined_forall (fun c => c ≠ NUL) (Char.ofNat 32) (by decide)
      (fun d hd => (hex_upper_ne d hd).1) b hb, ?_, ?_, ?_, ?_⟩
  · rw [hxr, hex_joined_head]
    intro h
    exact (hex_upper_ne _ hd0).2.1 (Option.some.inj h)
  · rw [hlast1]
    intro h
    exact (hex_upper_ne _ hd1).2.1 (Option.some.inj h)
  · rw [hxr, hex_joined_head]
    intro h
    exact (hex_upper_ne _ hd0).2.2 (Option.some.inj h)
  · rw [hlast2]
    intro h
    exact (hex_upper_ne _ hd2).2.2 (Option.some.inj h)

/-- The formatters have no defined result on a non-empty vector: the stored
characters are one more than the declared length of `buf`, the terminating NUL
of the last `sprintf` lying outside the array. -/
theorem format_no_result_of_nonempty (size_bits : Nat) (b : List Nat) (hne : b ≠ [])
    (hfit : 3 * b.length < 2 ^ size_bits) :
    format_uid size_bits b = none ∧ format_bytes size_bits b = none := by
  have hpos : 0 < b.length := List.length_pos.mpr hne
  have hlen : format_buf_length size_bits b.length = 3 * b.length - 1 := by
    unfold format_buf_length to_size_t
    have hcast : ((2 : Int) ^ size_bits) = ((2 ^ size_bits : Nat) : Int) := by push_cast; rfl
    rw [hcast]
    generalize 2 ^ size_bits = m at hfit
    have hmod : ((b.length : Int) * 2 + (b.length : Int) - 1) % (m : Int) =
        (b.length : Int) * 2 + (b.length : Int) - 1 :=
      Int.emod_eq_of_lt (by omega) (by omega)
    rw [hmod]
    omega
  have hl1 := hex_joined_length (Char.ofNat 45) b hne
  have hl2 := hex_joined_length (Char.ofNat 32) b hne
  have hs1 := format_loop_stored_all (Char.ofNat 45) b hne
  have hs2 := format_loop_stored_all (Char.ofNat 32) b hne
  have hlt1 : format_buf_length size_bits b.length <
      (hex_joined (Char.ofNat 45) b ++ [NUL]).length := by
    rw [hlen, List.length_append, List.length_singleton]; omega
  have hlt2 : format_buf_length size_bits b.length <
      (hex_joined (Char.ofNat 32) b ++ [NUL]).length := by
    rw [hlen, List.length_append, List.length_singleton]; omega
  constructor
  · unfold format_uid format_uid_stored
    rw [hs1]
    simp only [hlt1, if_true]
  · unfold format_bytes format_bytes_stored
    rw [hs2]
    simp only [hlt2, if_true]

/-- C14, evaluated at the failing inputs, the vectors of the specification: for
`[0x04,0xA2,0xFF]` the array `buf` has 8 characters and `format_uid` stores
the 8 characters of "04-A2-FF" and then the NUL outside the array, so that no
result is defined, "04-A2-FF" included; likewise `format_bytes` on
`[0x01,0x02]` and both functions on `[0x9A]`. -/
theorem format_output_not_defined :
    format_buf_length 32 3 = 8 ∧
    format_uid_stored [0x04, 0xA2, 0xFF] = some ("04-A2-FF".toList ++ [NUL]) ∧
    format_uid 32 [0x04, 0xA2, 0xFF] = none ∧
    format_uid 32 [0x04, 0xA2, 0xFF] ≠ some "04-A2-FF" ∧
    format_buf_length 32 2 = 5 ∧
    format_bytes_stored [0x01, 0x02] = some ("01 02".toList ++ [NUL]) ∧
    format_bytes 32 [0x01, 0x02] = none ∧
    format_uid 32 [0x9A] = none ∧ format_bytes 32 [0x9A] = none ∧
    format_uid 64 [0x04, 0xA2, 0xFF] = none ∧ format_bytes 64 [0x01, 0x02] = none := by
  decide

/-- The length expression of `buf` wraps at size 0, whatever the width of
`size_t`: it yields `2^size_bits - 1`. -/
theorem format_buf_length_zero (size_bits : Nat) :
    format_buf_length size_bits 0 = 2 ^ size_bits - 1 := by
  unfold format_buf_length to_size_t
  have hpos : 0 < 2 ^ size_bits := Nat.two_pow_pos size_bits
  have hcast : ((2 : Int) ^ size_bits) = ((2 ^ size_bits : Nat) : Int) := by push_cast; rfl
  rw [hcast]
  generalize 2 ^ size_bits = m at hpos
  have h1 : ((0 : Nat) : Int) * 2 + ((0 : Nat) : Int) - 1 = -1 := by norm_num
  rw [h1]
  have h2 : (-1 : Int) % (m : Int) = -1 + (m : Int) := by
    rw [← Int.add_emod_self]
    exact Int.emod_eq_of_lt (by omega) (by omega)
  rw [h2]
  omega

/-- On the empty vector the formatters have no defined result at any width of
`size_t`: nothing is stored, and the string is read from bytes never stored. -/
theorem format_empty_no_result (size_bits : Nat) :
    format_uid size_bits [] = none ∧ format_bytes size_bits [] = none := by
  constructor
  · simp [format_uid, format_uid_stored, format_loop, read_c_string]
  · simp [format_bytes, format_bytes_stored, format_loop, read_c_string]

/-- C15, evaluated at the failing input, the empty vector: the length
expression of `buf` wraps to 4294967295 for a 32-bit `size_t` and to
18446744073709551615 for a 64-bit one; the loop stores nothing, and the
string is read from bytes that were never stored, so that no result, the
empty string included, is determined. -/
theorem format_empty_input_wraps :
    format_buf_length 32 0 = 4294967295 ∧
    format_buf_length 64 0 = 18446744073709551615 ∧
    format_uid_stored [] = some [] ∧ format_bytes_stored [] = some [] ∧
    format_uid 32 [] = none ∧ format_bytes 32 [] = none ∧
    format_uid 64 [] = none ∧ format_bytes 64 [] = none ∧
    format_uid 32 [] ≠ some "" ∧ format_bytes 32 [] ≠ some "" ∧
    format_uid 64 [] ≠ some "" ∧ format_bytes 64 [] ≠ some "" := by
  decide

/-- For a non-empty vector of `n` bytes whose length expression does not wrap,
each formatter stores `3n` characters, one more than the declared length
`3n - 1` of `buf`. -/
theorem format_stored_length (size_bits : Nat) (b : List Nat) (hne : b ≠ [])
    (hfit : 3 * b.length < 2 ^ size_bits) :
    format_buf_length size_bits b.length = 3 * b.length - 1 ∧
    (∃ mem, format_uid_stored b = some mem ∧
      mem.length = format_buf_length size_bits b.length + 1) ∧
    (∃ mem, format_bytes_stored b = some mem ∧
      mem.length = format_buf_length size_bits b.length + 1) := by
  have hpos : 0 < b.length := List.length_pos.mpr hne
  have hlen : format_buf_length size_bits b.length = 3 * b.length - 1 := by
    unfold format_buf_length to_size_t
    have hcast : ((2 : Int) ^ size_bits) = ((2 ^ size_bits : Nat) : Int) := by push_cast; rfl
    rw [hcast]
    generalize 2 ^ size_bits = m at hfit
    have hmod : ((b.length : Int) * 2 + (b.length : Int) - 1) % (m : Int) =
        (b.length : Int) * 2 + (b.length : Int) - 1 :=
      Int.emod_eq_of_lt (by omega) (by omega)
    rw [hmod]
    omega
  have hl1 := hex_joined_length (Char.ofNat 45) b hne
  have hl2 := hex_joined_length (Char.ofNat 32) b hne
  refine ⟨hlen, ⟨_, format_loop_stored_all (Char.ofNat 45) b hne, ?_⟩,
    ⟨_, format_loop_stored_all (Char.ofNat 32) b hne, ?_⟩⟩
  · rw [hlen, List.length_append, List.length_singleton]; omega
  · rw [hlen, List.length_append, List.length_singleton]; omega

/-- C20, evaluated at the failing input `[0x9A]`: the declared length of `buf`
is 2, and the single `sprintf` stores 3 characters, the digits `9`, `A` and
the terminating NUL; for `[0x04,0xA2,0xFF]` 9 characters are stored in a
buffer of 8. -/
theorem format_writes_exceed_buffer :
    format_buf_length 32 1 = 2 ∧
    format_uid_stored [0x9A] = some [Char.ofNat 57, Char.ofNat 65, NUL] ∧
    format_bytes_stored [0x9A] = some [Char.ofNat 57, Char.ofNat 65, NUL] ∧
    format_buf_length 32 3 = 8 ∧
    (format_uid_stored [0x04, 0xA2, 0xFF]).map List.length = some 9 ∧
    (format_bytes_stored [0x04, 0xA2, 0xFF]).map List.length = some 9 := by
  decide

end nfc
end esphome
